import Mathlib

/-!
Verification of the numerical core of the Barry BAO-fitting pipeline.

This file gives a shallow embedding of the relevant parts of the source:
  * barry/cosmology/camb_generator.py  (class CambGenerator: cache fingerprint,
    load_data, get_data, _interpolate)
  * barry/cosmology/pk2xi.py           (class PowerToCorrelationGauss)
  * barry/models/bao_correlation.py and
    barry/framework/models/bao_correlation_poly.py (the smoothing-method
    validation gate in CorrelationPolynomial.__init__)

Python/numpy floats are idealised as exact rationals (for the generator, whose
arithmetic is rational) or reals (for the transform engine, whose arithmetic is
transcendental).  Python exceptions are modelled as Option/Except failure
values.  Mutation of instance state is modelled by explicit state passing.
-/

/-- Python sequence indexing `l[i]`: a nonnegative index counts from the front
and raises IndexError (here: `none`) once it reaches `len(l)`; a negative index
wraps from the back, `l[i] = l[len l + i]`, and raises below `-len(l)`.
numpy arrays index the same way on each axis. -/
def pyGet {α : Type} (l : List α) (i : ℤ) : Option α :=
  if 0 ≤ i then l[i.toNat]?
  else if -i ≤ (l.length : ℤ) then l[l.length - (-i).toNat]?
  else none

/-- numpy two-axis indexing `data[i, j]` on a table stored as nested lists. -/
def pyGet2 {α : Type} (t : List (List α)) (i j : ℤ) : Option α :=
  (pyGet t i).bind fun r => pyGet r j

/-- The i-th sample of `np.linspace(a, b, n)`; for `n ≥ 2` this is
`a + i*(b-a)/(n-1)` with the endpoints attained exactly, and for `n = 1` the
single sample is `a` (the `i = 0` case below, where the vanishing numerator
makes the division irrelevant). -/
def linVal (a b : ℚ) (n i : ℕ) : ℚ := a + i * (b - a) / ((n : ℚ) - 1)

/-- List form of `np.linspace(a, b, n)`. -/
def linspaceL (a b : ℚ) (n : ℕ) : List ℚ := (List.range n).map (linVal a b n)

/-- The field `self.k_num` is hardcoded to 2000 in CambGenerator.__init__. -/
abbrev k_num : ℕ := 2000

/-- Width of one table row: channel 0 is the sound horizon, the remaining
3 * k_num channels hold the linear spectrum (k_num values) and the flattened
two-redshift nonlinear spectrum (2 * k_num values). -/
abbrev rowLen : ℕ := 1 + 3 * k_num

/-- One row `data[i, j, :]` of the generated table (numpy rows are rectangular,
so a fixed-width function is a faithful model). -/
def Row : Type := Fin rowLen → ℚ

/-- The full 3D table `data`, with Python/numpy indexing on the first two axes. -/
def Table : Type := List (List Row)

/-- State of a CambGenerator instance.  Field defaults are the constructor
defaults of the source (redshift=0.61, om_resolution=101, h0_resolution=1,
h0=0.676, ob=0.04814, ns=0.97); `data` starts out `None`. -/
structure CambGenerator where
  redshift : ℚ := 61/100
  om_resolution : ℕ := 101
  h0_resolution : ℕ := 1
  h0 : ℚ := 169/250
  omega_b : ℚ := 2407/50000
  ns : ℚ := 97/100
  data : Option Table := none

/-- Python `int()` applied to an exact rational: truncation toward zero. -/
def pyInt (q : ℚ) : ℤ := if q < 0 then ⌈q⌉ else ⌊q⌋

/-- Decimal digit characters, used to render Python `str(int)`. -/
def digitCh : ℕ → Char
  | 0 => '0'
  | 1 => '1'
  | 2 => '2'
  | 3 => '3'
  | 4 => '4'
  | 5 => '5'
  | 6 => '6'
  | 7 => '7'
  | 8 => '8'
  | 9 => '9'
  | _ + 10 => '*'

/-- Decimal rendering of a natural number, as Python `str` produces it. -/
def natChars (n : ℕ) : List Char :=
  if n = 0 then ['0'] else (Nat.digits 10 n).reverse.map digitCh

/-- Decimal rendering of an integer, as Python `str` produces it. -/
def intChars (i : ℤ) : List Char :=
  if i < 0 then '-' :: natChars i.natAbs else natChars i.toNat

/-- The cache fingerprint `self.filename_unique` from CambGenerator.__init__:
`f"{int(z*1000)}_{om_res}_{h0_res}_{int(h0*10000)}_{int(ob*10000)}_{int(ns*1000)}"`. -/
def CambGenerator.filename_unique (g : CambGenerator) : String :=
  ⟨intChars (pyInt (g.redshift * 1000)) ++
    '_' :: natChars g.om_resolution ++
    '_' :: natChars g.h0_resolution ++
    '_' :: intChars (pyInt (g.h0 * 10000)) ++
    '_' :: intChars (pyInt (g.omega_b * 10000)) ++
    '_' :: intChars (pyInt (g.ns * 1000))⟩

/-- The tuple of integer-scaled field encodings that `filename_unique` is built
from. -/
def CambGenerator.encoded (g : CambGenerator) : ℤ × ℕ × ℕ × ℤ × ℤ × ℤ :=
  (pyInt (g.redshift * 1000), g.om_resolution, g.h0_resolution,
    pyInt (g.h0 * 10000), pyInt (g.omega_b * 10000), pyInt (g.ns * 1000))

/-- Embedding of `CambGenerator.load_data(self, can_generate=False)`.  The persisted cache
file and the table that `self._generate_data()` would produce (one external
CAMB solve per grid cell, followed by `np.save`) are passed explicitly.
Returns the instance state, the file state and the raised error, mirroring
the source: a missing file with `can_generate` false raises ValueError and
leaves both untouched; a missing file with `can_generate` true generates,
persists and installs the table; an existing file is loaded into `data`.
The ValueError message is carried verbatim up to punctuation (the source
text contains an apostrophe in "isn t"). -/
def CambGenerator.load_data (g : CambGenerator) (file : Option Table)
    (generated : Table) (can_generate : Bool := false) :
    CambGenerator × Option Table × Option String :=
  match file with
  | none =>
    if can_generate then ({ g with data := some generated }, some generated, none)
    else (g, none, some "Data does not exist and this is not the time to generate it!")
  | some t => ({ g with data := some t }, some t, none)

/-- Embedding of `CambGenerator._interpolate(self, omch2, h0)`, with the table passed
explicitly in place of `self.data`.  The grids `self.omch2s` /
`self.h0s` are inlined as the linspaces that __init__ builds
(`np.linspace(0.05, 0.3, om_resolution)`, and for h0_resolution > 1
`np.linspace(0.6, 0.8, h0_resolution)`); their `[0]` and `[-1]` accesses go
through Python indexing.  floor/ceil of the fractional index use exact
rational floor/ceil, matching `int(np.floor(.))` / `int(np.ceil(.))`.
(For om_resolution ≤ 1 the source divides by the float 0.0 and then fails on
`int(nan)`; no theorem below touches that degenerate configuration.) -/
def CambGenerator.interpolate (g : CambGenerator) (t : Table)
    (omch2 h0v : ℚ) : Option Row := do
  let omch2s := linspaceL (1/20) (3/10) g.om_resolution
  let s0 ← pyGet omch2s 0
  let sl ← pyGet omch2s (-1)
  let omch2_index : ℚ := ((g.om_resolution : ℚ) - 1) * (omch2 - s0) / (sl - s0)
  let h0_index : ℚ ←
    if g.h0_resolution = 1 then pure 0
    else do
      let h0s := linspaceL (3/5) (4/5) g.h0_resolution
      let a ← pyGet h0s 0
      let b ← pyGet h0s (-1)
      pure (((g.h0_resolution : ℚ) - 1) * (h0v - a) / (b - a))
  let x := omch2_index - ⌊omch2_index⌋
  let y := h0_index - ⌊h0_index⌋
  let v1 ← pyGet2 t ⌊omch2_index⌋ ⌊h0_index⌋
  let v2 ← pyGet2 t ⌈omch2_index⌉ ⌊h0_index⌋
  if g.h0_resolution = 1 then
    pure fun c => v1 c * (1 - x) * (1 - y) + v2 c * x * (1 - y)
  else do
    let v3 ← pyGet2 t ⌊omch2_index⌋ ⌈h0_index⌉
    let v4 ← pyGet2 t ⌈omch2_index⌉ ⌈h0_index⌉
    pure fun c =>
      v1 c * (1 - x) * (1 - y) + v2 c * x * (1 - y) +
        v3 c * y * (1 - x) + v4 c * x * y

/-- The slice `data[1 : 1 + k_num]` of an interpolated row: the linear
power spectrum channels. -/
def sliceLin (r : Row) : Fin k_num → ℚ :=
  fun i => r ⟨1 + i.1, by have h : i.1 < 2000 := i.isLt; show 1 + i.1 < 6001; omega⟩

/-- The slice `data[1 + 2 * k_num :]` of an interpolated row: the second
redshift block of the flattened nonlinear power spectrum. -/
def sliceNl (r : Row) : Fin k_num → ℚ :=
  fun i => r ⟨1 + 2 * k_num + i.1, by have h : i.1 < 2000 := i.isLt; show 1 + 2 * 2000 + i.1 < 6001; omega⟩

/-- Embedding of `CambGenerator.get_data(self, om=0.31, h0=None)`.  When `h0` is `None` it
defaults to `self.h0`; when `self.data` is `None` the source calls
`self.load_data()` with generation disallowed, which installs the persisted
file if present and raises otherwise (the `none` result here); then
`omch2 = (om - omega_b) * h0 * h0` is interpolated and the row is unpacked as
`(data[0], data[1 : 1 + k_num], data[1 + 2*k_num :])`. -/
def CambGenerator.get_data (g : CambGenerator) (file : Option Table)
    (om : ℚ := 31/100) (h0opt : Option ℚ := none) :
    Option (ℚ × (Fin k_num → ℚ) × (Fin k_num → ℚ)) :=
  let h0v := h0opt.getD g.h0
  let dat : Option Table := match g.data with
    | some t => some t
    | none => file
  dat.bind fun t =>
    (g.interpolate t ((om - g.omega_b) * h0v * h0v) h0v).map fun row =>
      (row ⟨0, by decide⟩, sliceLin row, sliceNl row)

/-! ### barry/cosmology/pk2xi.py : PowerToCorrelationGauss

The wavenumber grids are transcendental (log-spaced via `np.logspace` with
base e), so this part of the embedding lives over the reals. -/

noncomputable section

/-- Model of `np.min` over an array (numpy raises on an empty array; the junk value 0
below is never relied on: every theorem concerns nonempty grids). -/
def npMin (l : List ℝ) : ℝ :=
  match l with
  | [] => 0
  | x :: xs => xs.foldl min x

/-- Model of `np.max` over an array, with the same convention as `npMin`. -/
def npMax (l : List ℝ) : ℝ :=
  match l with
  | [] => 0
  | x :: xs => xs.foldl max x

/-- Model of `np.logspace(a, b, n, base=np.e)`: e raised to the n-point linear grid
from a to b.  As with `linVal`, the `n = 1` sample is `e^a` because the
vanishing numerator makes the division irrelevant. -/
def logspaceR (a b : ℝ) (n : ℕ) : List ℝ :=
  (List.range n).map fun i : ℕ => Real.exp (a + (i : ℝ) * (b - a) / ((n : ℝ) - 1))

/-- Model of `scipy.interpolate.interp1d(ks, pks, kind="linear")` evaluated at a single
point `q`: piecewise-linear interpolation between the sorted sample points,
with the default bounds check — a query below the first or above the last
sample raises ValueError (here: `none`).  Fewer than two sample points is
also an error in scipy. -/
def interp1d : List ℝ → List ℝ → ℝ → Option ℝ
  | x1 :: x2 :: xs, y1 :: y2 :: ys, q =>
    if q < x1 then none
    else if q ≤ x2 then some (y1 + (y2 - y1) * (q - x1) / (x2 - x1))
    else interp1d (x2 :: xs) (y2 :: ys) q
  | _, _, _ => none

/-- Vectorised evaluation of a fallible pointwise function: the scipy call
`interp1d(ks, pks)(dense_grid)` raises if any grid point is out of bounds. -/
def tryMap (f : ℝ → Option ℝ) : List ℝ → Option (List ℝ)
  | [] => some []
  | x :: xs =>
    match f x, tryMap f xs with
    | some y, some ys => some (y :: ys)
    | _, _ => none

/-- Model of `scipy.integrate.trapz(y, x)`: the trapezoid sum
`Σ (y i + y (i+1))/2 * (x (i+1) - x i)`. -/
def trapz : List ℝ → List ℝ → ℝ
  | y1 :: y2 :: ys, x1 :: x2 :: xs => (y1 + y2) / 2 * (x2 - x1) + trapz (y2 :: ys) (x2 :: xs)
  | _, _ => 0

namespace PowerToCorrelationGauss

/-- The instance field `self.ks2` from
`PowerToCorrelationGauss.__init__(ks, interpolateDetail=2, a=0.25)`:
`np.logspace(np.log(min ks), np.log(max ks), interpolateDetail * ks.size, base=np.e)`. -/
def ks2 (ks : List ℝ) (interpolateDetail : ℕ) : List ℝ :=
  logspaceR (Real.log (npMin ks)) (Real.log (npMax ks)) (interpolateDetail * ks.length)

/-- The instance field `self.precomp` from __init__:
`ks2 * np.exp(-ks2 * ks2 * a * a) / (2 pi pi)`. -/
def precomp (ks : List ℝ) (interpolateDetail : ℕ) (a : ℝ) : List ℝ :=
  (ks2 ks interpolateDetail).map fun k =>
    k * Real.exp (-(k * k * a * a)) / (2 * Real.pi * Real.pi)

/-- Embedding of `PowerToCorrelationGauss.__call__(self, ks, pks, ss)`.  The constructor
arguments (ks0, interpolateDetail, a) fix the instance state `ks2`/`precomp`;
the call interpolates `pks` onto the dense grid, multiplies by the
precomputed kernel, and for each distance s returns
`trapz(kkpks * sin(ks2 * s) / s, ks2)`. -/
def call (ks0 : List ℝ) (interpolateDetail : ℕ) (a : ℝ)
    (ks pks ss : List ℝ) : Option (List ℝ) :=
  (tryMap (interp1d ks pks) (ks2 ks0 interpolateDetail)).map fun pks2 =>
    ss.map fun s =>
      trapz
        (List.zipWith (fun kk k => kk * Real.sin (k * s) / s)
          (List.zipWith (fun p q => p * q) (precomp ks0 interpolateDetail a) pks2)
          (ks2 ks0 interpolateDetail))
        (ks2 ks0 interpolateDetail)

end PowerToCorrelationGauss

/-- The dense grid as the spec describes it: a log-spaced wavenumber grid of
`interpolateDetail` times the input size spanning the input range. -/
def specDenseGrid (ks : List ℝ) (interpolateDetail : ℕ) : List ℝ :=
  logspaceR (Real.log (npMin ks)) (Real.log (npMax ks)) (interpolateDetail * ks.length)

/-- The damping kernel as the spec writes it: `k * exp(-k^2 a^2) / (2 pi^2)`. -/
def specKernel (a k : ℝ) : ℝ := k * Real.exp (-(k ^ 2 * a ^ 2)) / (2 * Real.pi ^ 2)

/-- The transform as claim C3 words it, with the quadrature taken literally
in log-k space: interpolate the input spectrum onto the dense grid and, for
each distance s, form the trapezoidal quadrature of
`kernel(k) * pk(k) * sin(k s) / s` with the integration variable `log k`. -/
def specTransformLogK (ks0 : List ℝ) (interpolateDetail : ℕ) (a : ℝ)
    (ks pks ss : List ℝ) : Option (List ℝ) :=
  (tryMap (interp1d ks pks) (specDenseGrid ks0 interpolateDetail)).map fun pkI =>
    ss.map fun s =>
      trapz
        (List.zipWith (fun k p => specKernel a k * p * Real.sin (k * s) / s)
          (specDenseGrid ks0 interpolateDetail) pkI)
        ((specDenseGrid ks0 interpolateDetail).map Real.log)

/-- The transform as claim C3 words it, amended: the same integrand, but with
the trapezoidal quadrature taken with respect to k over the (log-spaced)
dense grid — which is what `trapz(integrand, self.ks2)` computes. -/
def specTransformK (ks0 : List ℝ) (interpolateDetail : ℕ) (a : ℝ)
    (ks pks ss : List ℝ) : Option (List ℝ) :=
  (tryMap (interp1d ks pks) (specDenseGrid ks0 interpolateDetail)).map fun pkI =>
    ss.map fun s =>
      trapz
        (List.zipWith (fun k p => specKernel a k * p * Real.sin (k * s) / s)
          (specDenseGrid ks0 interpolateDetail) pkI)
        (specDenseGrid ks0 interpolateDetail)

end

/-! ### The smoothing-method validation gate

`CorrelationPolynomial.__init__` (both in barry/models/bao_correlation.py and
barry/framework/models/bao_correlation_poly.py) lowercases the requested
smoothing method name, checks it with `validate_smooth_method`, and aborts
construction via `exit(0)` when the check fails. -/

/-- Modelled from the spec: `validate_smooth_method` lives in
barry/cosmology/power_spectrum_smoothing.py, which is not part of the given
sources.  Per spec section 6 the smoothing collaborator works with a set of
named methods, and per section 7 an unrecognized method name causes an
`InvalidParameterRange` error to be raised or logged, propagated immediately.
We model the recognized names as an explicit set and return the validation
verdict together with the logged error messages. -/
def validate_smooth_method (recognized : List String) (name : String) :
    Bool × List String :=
  if recognized.contains name then (true, [])
  else (false, ["InvalidParameterRange: unrecognized smoothing method " ++ name])

/-- The slice of CorrelationPolynomial state that the validation gate decides
on: the stored (lowercased) smoothing method name. -/
structure CorrelationPolynomial where
  smooth_type : String

/-- Embedding of `CorrelationPolynomial.__init__(smooth_type=...)`, reduced to the
validation gate: store the lowercased name, then call
`validate_smooth_method(smooth_type)` and abort construction (`exit(0)` in
the source, i.e. no instance is ever returned) when it fails.  The error
value carries the messages logged by the collaborator. -/
def CorrelationPolynomial.construct (recognized : List String)
    (smooth_type : String) : Except (List String) CorrelationPolynomial :=
  let v := validate_smooth_method recognized smooth_type
  if v.1 then Except.ok ⟨smooth_type.toLower⟩ else Except.error v.2

/-! ### Helper lemmas about the embedded primitives -/

/-- The continuous fractional Omega-m grid index computed by `_interpolate`
once the grid endpoints `omch2s[0] = 0.05` and `omch2s[-1] = 0.3` are
resolved (valid for om_resolution ≥ 2). -/
def omIdx (g : CambGenerator) (omch2 : ℚ) : ℚ :=
  ((g.om_resolution : ℚ) - 1) * (omch2 - 1/20) / (3/10 - 1/20)

/-- The continuous fractional H0 grid index computed by `_interpolate` once
the grid endpoints `h0s[0] = 0.6` and `h0s[-1] = 0.8` are resolved (valid for
h0_resolution ≥ 2). -/
def h0Idx (g : CambGenerator) (h0v : ℚ) : ℚ :=
  ((g.h0_resolution : ℚ) - 1) * (h0v - 3/5) / (4/5 - 3/5)

/-- One-dimensional linear interpolation over the Omega-m axis alone, as claim C7 words it:
`(1-x) * data[floor][0] + x * data[ceil][0]` with x the fractional Omega-m
index (failing exactly when the corresponding lookups fail). -/
def interpolate1D (g : CambGenerator) (t : Table) (omch2 : ℚ) : Option Row :=
  (pyGet2 t ⌊omIdx g omch2⌋ 0).bind fun v1 =>
    (pyGet2 t ⌈omIdx g omch2⌉ 0).map fun v2 =>
      fun ch =>
        v1 ch * (1 - (omIdx g omch2 - ⌊omIdx g omch2⌋)) +
          v2 ch * (omIdx g omch2 - ⌊omIdx g omch2⌋)

/-- Constant row used in a concrete generator shared by several concrete
instantiations below: om_resolution = 2 (grid omch2s = [0.05, 0.3]), a degenerate H0 grid, h0 = 1,
omega_b = 0, with an in-memory table. -/
def rowA : Row := fun _ => 10

/-- Second concrete row, distinguishable from `rowA`. -/
def rowB : Row := fun _ => 20

/-- Concrete 2 x 1 table. -/
def tC : Table := [[rowA], [rowB]]

/-- Concrete generator holding `tC`. -/
def gC : CambGenerator :=
  { om_resolution := 2, h0 := 1, omega_b := 0, data := some tC }

/-- Two generators differing only in redshift (0.51 vs 0.5101), which the
fixed-precision integer scaling collapses to the same encoding 510. -/
def g4a : CambGenerator := { redshift := 51/100 }

/-- The second generator of the C4 counterexample. -/
def g4b : CambGenerator := { redshift := 5101/10000 }

theorem linVal_zero (a b : ℚ) (n : ℕ) : linVal a b n 0 = a := by
  simp [linVal]

theorem linVal_last (a b : ℚ) {n : ℕ} (hn : 2 ≤ n) : linVal a b n (n - 1) = b := by
  unfold linVal
  have hcast : ((n - 1 : ℕ) : ℚ) = (n : ℚ) - 1 := by
    push_cast [Nat.cast_sub (by omega : 1 ≤ n)]
    ring
  have hne : (n : ℚ) - 1 ≠ 0 := by
    have h2 : (2 : ℚ) ≤ (n : ℚ) := by exact_mod_cast hn
    linarith
  rw [hcast]
  field_simp

theorem linspaceL_length (a b : ℚ) (n : ℕ) : (linspaceL a b n).length = n := by
  simp [linspaceL]

theorem linspace_get (a b : ℚ) {n i : ℕ} (hi : i < n) :
    pyGet (linspaceL a b n) (i : ℤ) = some (linVal a b n i) := by
  unfold pyGet
  rw [if_pos (by omega)]
  simp only [Int.toNat_natCast, linspaceL]
  rw [List.getElem?_map, List.getElem?_range hi]
  rfl

theorem linspace_first (a b : ℚ) {n : ℕ} (hn : 1 ≤ n) :
    pyGet (linspaceL a b n) 0 = some a := by
  have h := linspace_get a b (show 0 < n by omega)
  simpa [linVal_zero] using h

theorem linspace_last (a b : ℚ) {n : ℕ} (hn : 2 ≤ n) :
    pyGet (linspaceL a b n) (-1) = some b := by
  unfold pyGet
  rw [if_neg (by norm_num), if_pos (by rw [linspaceL_length]; omega)]
  rw [linspaceL_length]
  simp only [linspaceL]
  norm_num
  exact ⟨n - 1, by rw [List.getElem?_range (by omega)], linVal_last a b hn⟩

/-- Reduction of `_interpolate` for a degenerate H0 grid (h0_resolution = 1):
the H0 index is 0, its fractional part y vanishes, and the blend collapses to
the two Omega-m lookups at floor/ceil of the fractional index. -/
theorem interpolate_res1 (g : CambGenerator) (t : Table) (omch2 h0v : ℚ)
    (hres : g.h0_resolution = 1) (hN : 2 ≤ g.om_resolution) :
    g.interpolate t omch2 h0v =
      (pyGet2 t ⌊omIdx g omch2⌋ 0).bind fun v1 =>
        (pyGet2 t ⌈omIdx g omch2⌉ 0).map fun v2 =>
          fun ch =>
            v1 ch * (1 - (omIdx g omch2 - ⌊omIdx g omch2⌋)) +
              v2 ch * (omIdx g omch2 - ⌊omIdx g omch2⌋) := by
  unfold CambGenerator.interpolate
  simp only [linspace_first _ _ (by omega : 1 ≤ g.om_resolution), linspace_last _ _ hN, hres,
    reduceIte, Option.bind_eq_bind, Option.some_bind, Option.pure_def, Int.floor_zero,
    Int.cast_zero, sub_zero, sub_self]
  have hidx : ((g.om_resolution : ℚ) - 1) * (omch2 - 1 / 20) / (3 / 10 - 1 / 20) =
      omIdx g omch2 := rfl
  rw [hidx]
  cases h1 : pyGet2 t ⌊omIdx g omch2⌋ 0 with
  | none => simp
  | some v1 =>
    cases h2 : pyGet2 t ⌈omIdx g omch2⌉ 0 with
    | none => simp
    | some v2 =>
      simp only [Option.some_bind, Option.map_some, Option.map_some', Option.some.injEq]
      funext ch
      ring

/-- Reduction of `_interpolate` for a genuine 2D grid (h0_resolution ≥ 2):
four lookups blended bilinearly. -/
theorem interpolate_res2 (g : CambGenerator) (t : Table) (omch2 h0v : ℚ)
    (hres : 2 ≤ g.h0_resolution) (hN : 2 ≤ g.om_resolution) :
    g.interpolate t omch2 h0v =
      (pyGet2 t ⌊omIdx g omch2⌋ ⌊h0Idx g h0v⌋).bind fun v1 =>
        (pyGet2 t ⌈omIdx g omch2⌉ ⌊h0Idx g h0v⌋).bind fun v2 =>
          (pyGet2 t ⌊omIdx g omch2⌋ ⌈h0Idx g h0v⌉).bind fun v3 =>
            (pyGet2 t ⌈omIdx g omch2⌉ ⌈h0Idx g h0v⌉).map fun v4 =>
              fun ch =>
                v1 ch * (1 - (omIdx g omch2 - ⌊omIdx g omch2⌋)) *
                    (1 - (h0Idx g h0v - ⌊h0Idx g h0v⌋)) +
                  v2 ch * (omIdx g omch2 - ⌊omIdx g omch2⌋) *
                    (1 - (h0Idx g h0v - ⌊h0Idx g h0v⌋)) +
                  v3 ch * (h0Idx g h0v - ⌊h0Idx g h0v⌋) *
                    (1 - (omIdx g omch2 - ⌊omIdx g omch2⌋)) +
                  v4 ch * (omIdx g omch2 - ⌊omIdx g omch2⌋) *
                    (h0Idx g h0v - ⌊h0Idx g h0v⌋) := by
  have hne : g.h0_resolution ≠ 1 := by omega
  unfold CambGenerator.interpolate
  simp only [linspace_first _ _ (by omega : 1 ≤ g.om_resolution), linspace_last _ _ hN,
    if_neg hne, linspace_first _ _ (by omega : 1 ≤ g.h0_resolution),
    linspace_last _ _ hres, Option.bind_eq_bind, Option.some_bind, Option.pure_def]
  have hidx : ((g.om_resolution : ℚ) - 1) * (omch2 - 1 / 20) / (3 / 10 - 1 / 20) =
      omIdx g omch2 := rfl
  have hidx2 : ((g.h0_resolution : ℚ) - 1) * (h0v - 3 / 5) / (4 / 5 - 3 / 5) =
      h0Idx g h0v := rfl
  rw [hidx, hidx2]
  cases h1 : pyGet2 t ⌊omIdx g omch2⌋ ⌊h0Idx g h0v⌋ with
  | none => simp
  | some v1 =>
    cases h2 : pyGet2 t ⌈omIdx g omch2⌉ ⌊h0Idx g h0v⌋ with
    | none => simp
    | some v2 =>
      cases h3 : pyGet2 t ⌊omIdx g omch2⌋ ⌈h0Idx g h0v⌉ with
      | none => simp
      | some v3 =>
        cases h4 : pyGet2 t ⌈omIdx g omch2⌉ ⌈h0Idx g h0v⌉ with
        | none => simp
        | some v4 =>
          simp only [Option.some_bind, Option.map_some, Option.map_some', Option.some.injEq]

/-! ### Claims C5, C7, C2 -/

/-- Claim C5: when the persisted cache file is absent, `load_data` with
generation disallowed (the default `can_generate=False`) raises the
data-unavailable ValueError, leaves the instance state (in particular
`self.data`) unchanged, and does not consult the generation path (the result
is the same for every possible generated table); with `can_generate=True` on
the same cache miss it generates, persists (the file state becomes the
generated table) and installs the table, raising nothing. -/
theorem claim5_load_data_gate (g : CambGenerator) (generated : Table) :
    (∀ gen : Table, g.load_data none gen =
      (g, none, some "Data does not exist and this is not the time to generate it!")) ∧
    g.load_data none generated true =
      ({ g with data := some generated }, some generated, none) :=
  ⟨fun _ => rfl, rfl⟩

/-- Claim C7: when h0_resolution = 1 the bilinear blend of `_interpolate` is
exactly 1D linear interpolation over the Omega-m axis alone — for every
in-memory table and every query the result is
`(1-x) * data[floor][0] + x * data[ceil][0]` with x the fractional Omega-m
index, the H0 dimension contributing no variation.  (om_resolution ≥ 2 is
assumed; smaller grids make the source divide by zero.) -/
theorem claim7_degenerate_h0 (g : CambGenerator) (t : Table) (omch2 h0v : ℚ)
    (hres : g.h0_resolution = 1) (hN : 2 ≤ g.om_resolution) :
    g.interpolate t omch2 h0v = interpolate1D g t omch2 :=
  interpolate_res1 g t omch2 h0v hres hN

/-- Witness for C7 at a concrete degenerate-H0 generator and query. -/
theorem claim7_degenerate_h0_witness :
    gC.h0_resolution = 1 ∧ 2 ≤ gC.om_resolution ∧
    gC.interpolate tC (1/10) 1 = interpolate1D gC tC (1/10) :=
  ⟨rfl, by norm_num [gC], claim7_degenerate_h0 gC tC (1/10) 1 rfl (by norm_num [gC])⟩

/-- Claim C2: `get_data(om, None)` equals `get_data(om, self.h0)` for every
om; and for a loaded generator, `get_data` computes
`omch2 = (om - omega_b) * h0 * h0`, bilinearly interpolates the table row at
that omch2 (and h0), and returns the triple whose first component is channel
0 of the interpolated row and whose `pk_linear` / `pk_nonlinear` components
are the slices `data[1 : 1 + k_num]` and `data[1 + 2*k_num :]` — each, by
the types of `sliceLin` / `sliceNl`, a sequence of exactly k_num values
drawn from the concatenated linear and nonlinear channels of that row. -/
theorem claim2_get_data_spec (g : CambGenerator) (file : Option Table)
    (t : Table) (om h0v : ℚ) (row : Row)
    (hd : g.data = some t)
    (hint : g.interpolate t ((om - g.omega_b) * h0v * h0v) h0v = some row) :
    (∀ om2 : ℚ, g.get_data file om2 none = g.get_data file om2 (some g.h0)) ∧
    g.get_data file om (some h0v) =
      some (row ⟨0, by decide⟩, sliceLin row, sliceNl row) := by
  refine ⟨fun om2 => rfl, ?_⟩
  unfold CambGenerator.get_data
  rw [hd]
  simp [hint]

/-- Witness for C2: a loaded 2 x 1 generator queried at the lower grid node,
where the interpolated row is constantly 10 (the blend of `rowA` with
itself). -/
theorem claim2_get_data_spec_witness :
    gC.data = some tC ∧
    gC.interpolate tC ((1/20 - gC.omega_b) * 1 * 1) 1 = some (fun _ => 10) ∧
    gC.get_data none (1/20) none = gC.get_data none (1/20) (some gC.h0) ∧
    gC.get_data none (1/20) (some 1) =
      some ((fun _ => 10 : Row) ⟨0, by decide⟩,
        sliceLin (fun _ => 10), sliceNl (fun _ => 10)) := by
  have hidx : omIdx gC ((1/20 - gC.omega_b) * 1 * 1) = 0 := by
    norm_num [omIdx, gC]
  have hint : gC.interpolate tC ((1/20 - gC.omega_b) * 1 * 1) 1 = some (fun _ => 10) := by
    rw [interpolate_res1 _ _ _ _ rfl (by norm_num [gC]), hidx]
    have hv : pyGet2 tC 0 0 = some rowA := rfl
    norm_num [hv]
    funext ch
    norm_num [rowA]
  exact ⟨rfl, hint,
    (claim2_get_data_spec gC none tC (1/20) 1 (fun _ => 10) rfl hint).1 (1/20),
    (claim2_get_data_spec gC none tC (1/20) 1 (fun _ => 10) rfl hint).2⟩

/-- Rescaling a linspace node back through the index map recovers the index. -/
theorem linVal_index (a b : ℚ) (hab : b - a ≠ 0) {n : ℕ} (hn : 2 ≤ n) (i : ℕ) :
    ((n : ℚ) - 1) * (linVal a b n i - a) / (b - a) = i := by
  have hne : (n : ℚ) - 1 ≠ 0 := by
    have h2 : (2 : ℚ) ≤ (n : ℚ) := by exact_mod_cast hn
    linarith
  unfold linVal
  field_simp
  ring

/-- Exactness of `_interpolate` at a grid node: when omch2 is exactly the i-th
Omega-m sample (and h0 exactly the j-th H0 sample, or j = 0 for a degenerate
H0 grid), the result is exactly the stored row (i, j). -/
theorem interpolate_node (g : CambGenerator) (t : Table) (omch2 h0v : ℚ)
    (i j : ℕ) (row : Row)
    (hN : 2 ≤ g.om_resolution)
    (hom : omch2 = linVal (1/20) (3/10) g.om_resolution i)
    (hj : (g.h0_resolution = 1 ∧ j = 0) ∨
      (2 ≤ g.h0_resolution ∧ h0v = linVal (3/5) (4/5) g.h0_resolution j))
    (hrow : pyGet2 t (i : ℤ) (j : ℤ) = some row) :
    g.interpolate t omch2 h0v = some row := by
  have homIdx : omIdx g omch2 = (i : ℚ) := by
    rw [hom]
    exact linVal_index _ _ (by norm_num) hN i
  have hfl : ⌊omIdx g omch2⌋ = (i : ℤ) := by
    rw [homIdx]
    exact Int.floor_natCast i
  have hcl : ⌈omIdx g omch2⌉ = (i : ℤ) := by
    rw [homIdx]
    exact Int.ceil_natCast i
  have hx : omIdx g omch2 - (⌊omIdx g omch2⌋ : ℚ) = 0 := by
    rw [homIdx]
    simp
  rcases hj with ⟨hres, hj0⟩ | ⟨hres, hnode⟩
  · subst hj0
    simp only [Nat.cast_zero] at hrow
    rw [interpolate_res1 _ _ _ _ hres hN, hfl, hcl, hrow]
    simp only [Option.some_bind, Option.map_some', hx, Option.some.injEq]
    funext ch
    ring
  · have hhIdx : h0Idx g h0v = (j : ℚ) := by
      rw [hnode]
      exact linVal_index _ _ (by norm_num) hres j
    have hfl2 : ⌊h0Idx g h0v⌋ = (j : ℤ) := by
      rw [hhIdx]
      exact Int.floor_natCast j
    have hcl2 : ⌈h0Idx g h0v⌉ = (j : ℤ) := by
      rw [hhIdx]
      exact Int.ceil_natCast j
    have hy : h0Idx g h0v - (⌊h0Idx g h0v⌋ : ℚ) = 0 := by
      rw [hhIdx]
      simp
    rw [interpolate_res2 _ _ _ _ hres hN, hfl, hcl, hfl2, hcl2, hrow]
    simp only [Option.some_bind, Option.map_some', hx, hy, Option.some.injEq]
    funext ch
    ring

/-- Claim C6: for a loaded generator, a query whose derived omch2 falls
exactly on an Omega-m grid node (and whose h0 falls exactly on an H0 grid
node when h0_resolution > 1) returns exactly the raw stored table entries of
that node — sound horizon and both spectra slices (exact equality in the
idealised rational arithmetic, hence within floating-point tolerance in the
source). -/
theorem claim6_grid_node_exact (g : CambGenerator) (file : Option Table)
    (t : Table) (om h0v : ℚ) (i j : ℕ) (row : Row)
    (hd : g.data = some t)
    (hN : 2 ≤ g.om_resolution)
    (hom : (om - g.omega_b) * h0v * h0v = linVal (1/20) (3/10) g.om_resolution i)
    (hj : (g.h0_resolution = 1 ∧ j = 0) ∨
      (2 ≤ g.h0_resolution ∧ h0v = linVal (3/5) (4/5) g.h0_resolution j))
    (hrow : pyGet2 t (i : ℤ) (j : ℤ) = some row) :
    g.get_data file om (some h0v) =
      some (row ⟨0, by decide⟩, sliceLin row, sliceNl row) := by
  have hint := interpolate_node g t _ h0v i j row hN hom hj hrow
  unfold CambGenerator.get_data
  rw [hd]
  simp [hint]

/-- Witness for C6 at the lower Omega-m node of the concrete generator. -/
theorem claim6_grid_node_exact_witness :
    gC.data = some tC ∧
    (1/20 - gC.omega_b) * 1 * 1 = linVal (1/20) (3/10) gC.om_resolution 0 ∧
    pyGet2 tC (0 : ℤ) (0 : ℤ) = some rowA ∧
    gC.get_data none (1/20) (some 1) =
      some (rowA ⟨0, by decide⟩, sliceLin rowA, sliceNl rowA) := by
  have hom : (1/20 - gC.omega_b) * 1 * 1 = linVal (1/20) (3/10) gC.om_resolution 0 := by
    norm_num [linVal, gC]
  exact ⟨rfl, hom, rfl,
    claim6_grid_node_exact gC none tC (1/20) 1 0 0 rowA rfl (by norm_num [gC]) hom
      (Or.inl ⟨rfl, rfl⟩) rfl⟩

/-- Out-of-grid behaviour, above the span: once omch2 exceeds omch2s[-1] the
ceil index reaches om_resolution and the numpy row lookup raises IndexError. -/
theorem interp_above_none (g : CambGenerator) (t : Table) (omch2 h0v : ℚ)
    (hres : g.h0_resolution = 1) (hN : 2 ≤ g.om_resolution)
    (hlen : t.length = g.om_resolution) (habove : 3/10 < omch2) :
    g.interpolate t omch2 h0v = none := by
  have hNQ : (2 : ℚ) ≤ (g.om_resolution : ℚ) := by exact_mod_cast hN
  have hgt : ((g.om_resolution : ℚ) - 1) < omIdx g omch2 := by
    have hform : omIdx g omch2 = ((g.om_resolution : ℚ) - 1) * (omch2 - 1/20) * 4 := by
      unfold omIdx
      ring
    rw [hform]
    nlinarith
  have hceil : (g.om_resolution : ℤ) ≤ ⌈omIdx g omch2⌉ := by
    have h1 : ((g.om_resolution : ℤ) - 1) < ⌈omIdx g omch2⌉ := by
      rw [Int.lt_ceil]
      push_cast
      exact hgt
    omega
  have hNZ : (2 : ℤ) ≤ (g.om_resolution : ℤ) := by exact_mod_cast hN
  have hv2 : pyGet2 t ⌈omIdx g omch2⌉ 0 = none := by
    unfold pyGet2 pyGet
    rw [if_pos (by omega)]
    rw [List.getElem?_eq_none (by rw [hlen]; omega)]
    rfl
  rw [interpolate_res1 _ _ _ _ hres hN]
  cases hv1 : pyGet2 t ⌊omIdx g omch2⌋ 0 with
  | none => simp
  | some v1 => simp [hv2]

/-- Out-of-grid behaviour, just below the span: for a query with fractional
index strictly between -1 and 0 the floor index is -1, which Python indexing
wraps to the LAST row of the table, while the ceil index is 0; no error is
raised and the same bilinear weights blend those two rows. -/
theorem interp_below_wrap (g : CambGenerator) (t : Table) (omch2 h0v : ℚ)
    (rl r0 : Row)
    (hres : g.h0_resolution = 1) (hN : 2 ≤ g.om_resolution)
    (hbelow : omch2 < 1/20) (hfloor : -1 < omIdx g omch2)
    (hrl : pyGet2 t (-1) 0 = some rl) (hr0 : pyGet2 t 0 0 = some r0) :
    g.interpolate t omch2 h0v =
      some fun ch =>
        rl ch * (1 - (omIdx g omch2 + 1)) + r0 ch * (omIdx g omch2 + 1) := by
  have hNQ : (2 : ℚ) ≤ (g.om_resolution : ℚ) := by exact_mod_cast hN
  have hneg : omIdx g omch2 < 0 := by
    have hform : omIdx g omch2 = ((g.om_resolution : ℚ) - 1) * (omch2 - 1/20) * 4 := by
      unfold omIdx
      ring
    rw [hform]
    nlinarith
  have hfl : ⌊omIdx g omch2⌋ = -1 := by
    rw [Int.floor_eq_iff]
    push_cast
    constructor
    · linarith
    · linarith
  have hcl : ⌈omIdx g omch2⌉ = 0 := by
    rw [Int.ceil_eq_iff]
    push_cast
    constructor
    · linarith
    · linarith
  rw [interpolate_res1 _ _ _ _ hres hN, hfl, hcl, hrl, hr0]
  simp only [Option.some_bind, Option.map_some', Option.some.injEq]
  funext ch
  push_cast
  ring

/-- Python wraparound identity: index -1 reads the last element. -/
theorem pyGet_neg_one {α : Type} (l : List α) :
    pyGet l (-1) = pyGet l ((l.length : ℤ) - 1) := by
  unfold pyGet
  rcases l with _ | ⟨a, as⟩
  · norm_num
  · have hlen : ((a :: as).length : ℤ) = (as.length : ℤ) + 1 := by
      simp
    rw [if_neg (by norm_num), if_pos (by rw [hlen]; omega), if_pos (by rw [hlen]; omega)]
    congr 1
    simp

/-- Claim C1 counterexample: at the concrete 2-point generator `gC` the query
omch2 = 2/5 lies strictly above the grid span [0.05, 0.3], and `_interpolate`
raises an IndexError (result `none`) instead of extrapolating from the
nearest edge cells as the claim states. -/
theorem claim1_counterexample :
    (3/10 : ℚ) < 2/5 ∧ gC.interpolate tC (2/5) 1 = none :=
  ⟨by norm_num, interp_above_none gC tC (2/5) 1 rfl (by norm_num [gC]) rfl (by norm_num)⟩

/-- Claim C1, amended: out-of-grid queries are not handled by clamping to the
nearest edge cells.  For a well-formed table (as many rows as om_resolution;
degenerate H0 grid): (a) every query with omch2 strictly above the grid span
raises an IndexError, because the ceil index reaches om_resolution; (b) a
query just below the span (fractional index in (-1, 0)) raises no error, but
its floor index -1 wraps via Python negative indexing to the LAST row of the
table, blended with row 0 under the same bilinear weights — the far edge,
not the nearest edge; (c) index -1 is literally the last-row index. -/
theorem claim1_amended_out_of_grid (g : CambGenerator) (t : Table)
    (omch2 h0v : ℚ)
    (hres : g.h0_resolution = 1) (hN : 2 ≤ g.om_resolution)
    (hlen : t.length = g.om_resolution) :
    (3/10 < omch2 → g.interpolate t omch2 h0v = none) ∧
    (∀ rl r0 : Row, omch2 < 1/20 → -1 < omIdx g omch2 →
      pyGet2 t (-1) 0 = some rl → pyGet2 t 0 0 = some r0 →
      g.interpolate t omch2 h0v =
        some fun ch =>
          rl ch * (1 - (omIdx g omch2 + 1)) + r0 ch * (omIdx g omch2 + 1)) ∧
    pyGet t (-1) = pyGet t ((t.length : ℤ) - 1) :=
  ⟨fun h => interp_above_none g t omch2 h0v hres hN hlen h,
   fun rl r0 h1 h2 h3 h4 => interp_below_wrap g t omch2 h0v rl r0 hres hN h1 h2 h3 h4,
   pyGet_neg_one t⟩

/-- Witness for the amended C1: above-span query errors; the query omch2 = 0
(fractional index -1/5) blends the last row `rowB` with row 0 `rowA`. -/
theorem claim1_amended_out_of_grid_witness :
    gC.interpolate tC (2/5) 1 = none ∧
    gC.interpolate tC 0 1 =
      some (fun ch =>
        rowB ch * (1 - (omIdx gC 0 + 1)) + rowA ch * (omIdx gC 0 + 1)) ∧
    pyGet tC (-1) = pyGet tC ((tC.length : ℤ) - 1) := by
  refine
    ⟨(claim1_amended_out_of_grid gC tC (2/5) 1 rfl (by norm_num [gC]) rfl).1 (by norm_num),
     (claim1_amended_out_of_grid gC tC 0 1 rfl (by norm_num [gC]) rfl).2.1 rowB rowA
       (by norm_num) ?_ rfl rfl,
     (claim1_amended_out_of_grid gC tC 0 1 rfl (by norm_num [gC]) rfl).2.2⟩
  norm_num [omIdx, gC]

/-! ### Claim C4: cache fingerprint determinism -/

theorem digitCh_ne_underscore (d : ℕ) : digitCh d ≠ '_' := by
  unfold digitCh
  split <;> decide

theorem digitCh_ne_dash (d : ℕ) : digitCh d ≠ '-' := by
  unfold digitCh
  split <;> decide

theorem digitCh_inj {a b : ℕ} (ha : a < 10) (hb : b < 10)
    (h : digitCh a = digitCh b) : a = b := by
  interval_cases a <;> interval_cases b <;> revert h <;> decide

theorem natChars_no_underscore (n : ℕ) : '_' ∉ natChars n := by
  unfold natChars
  split
  · decide
  · intro hmem
    rw [List.mem_map] at hmem
    obtain ⟨d, _, hd⟩ := hmem
    exact digitCh_ne_underscore d hd

theorem natChars_no_dash (n : ℕ) : '-' ∉ natChars n := by
  unfold natChars
  split
  · decide
  · intro hmem
    rw [List.mem_map] at hmem
    obtain ⟨d, _, hd⟩ := hmem
    exact digitCh_ne_dash d hd

theorem intChars_no_underscore (i : ℤ) : '_' ∉ intChars i := by
  unfold intChars
  split
  · intro hmem
    rcases List.mem_cons.mp hmem with h | h
    · exact absurd h (by decide)
    · exact natChars_no_underscore _ h
  · exact natChars_no_underscore _

/-- Splitting at an underscore separator is unambiguous when neither prefix
component contains an underscore. -/
theorem append_sep_inj : ∀ {s1 s2 t1 t2 : List Char}, '_' ∉ s1 → '_' ∉ s2 →
    s1 ++ '_' :: t1 = s2 ++ '_' :: t2 → s1 = s2 ∧ t1 = t2 := by
  intro s1
  induction s1 with
  | nil =>
    intro s2 t1 t2 _ h2 h
    cases s2 with
    | nil => simpa using h
    | cons c cs =>
      simp only [List.nil_append, List.cons_append, List.cons.injEq] at h
      exact absurd (show '_' ∈ c :: cs by rw [h.1]; exact List.mem_cons_self c cs) h2
  | cons a as ih =>
    intro s2 t1 t2 h1 h2 h
    cases s2 with
    | nil =>
      simp only [List.cons_append, List.nil_append, List.cons.injEq] at h
      exact absurd (show '_' ∈ a :: as by rw [← h.1]; exact List.mem_cons_self a as) h1
    | cons b bs =>
      simp only [List.cons_append, List.cons.injEq] at h
      obtain ⟨hab, hrest⟩ := h
      have h1' : '_' ∉ as := fun hm => h1 (List.mem_cons_of_mem _ hm)
      have h2' : '_' ∉ bs := fun hm => h2 (List.mem_cons_of_mem _ hm)
      obtain ⟨hs, ht⟩ := ih h1' h2' hrest
      exact ⟨by rw [hab, hs], ht⟩

theorem mapDigit_inj : ∀ {l1 l2 : List ℕ}, (∀ d ∈ l1, d < 10) → (∀ d ∈ l2, d < 10) →
    l1.map digitCh = l2.map digitCh → l1 = l2 := by
  intro l1
  induction l1 with
  | nil =>
    intro l2 _ _ h
    cases l2 with
    | nil => rfl
    | cons b bs => simp at h
  | cons a as ih =>
    intro l2 h1 h2 h
    cases l2 with
    | nil => simp at h
    | cons b bs =>
      simp only [List.map_cons, List.cons.injEq] at h
      obtain ⟨hab, hrest⟩ := h
      have hab2 : a = b := digitCh_inj (h1 a (by simp)) (h2 b (by simp)) hab
      have htail : as = bs :=
        ih (fun d hd => h1 d (by simp [hd])) (fun d hd => h2 d (by simp [hd])) hrest
      rw [hab2, htail]

/-- A decimal rendering equal to "0" can only come from 0. -/
theorem natChars_zero_aux {n : ℕ}
    (h : (Nat.digits 10 n).reverse.map digitCh = ['0']) : n = 0 := by
  obtain ⟨d, hd⟩ : ∃ d, (Nat.digits 10 n).reverse = [d] := by
    cases hrev : (Nat.digits 10 n).reverse with
    | nil => rw [hrev] at h; simp at h
    | cons d ds =>
      cases ds with
      | nil => exact ⟨d, rfl⟩
      | cons e es => rw [hrev] at h; simp at h
  rw [hd] at h
  simp only [List.map_cons, List.map_nil, List.cons.injEq, and_true] at h
  have hdm : d ∈ Nat.digits 10 n := by
    have : d ∈ (Nat.digits 10 n).reverse := by rw [hd]; exact List.mem_cons_self d []
    simpa using this
  have hd10 : d < 10 := Nat.digits_lt_base (by norm_num) hdm
  have hd0 : d = 0 := digitCh_inj hd10 (by norm_num) (by rw [h]; rfl)
  have hdig : Nat.digits 10 n = [0] := by
    have := congrArg List.reverse hd
    simpa [hd0] using this
  have := Nat.ofDigits_digits 10 n
  rw [hdig] at this
  simpa [Nat.ofDigits] using this.symm

theorem natChars_inj : ∀ {m n : ℕ}, natChars m = natChars n → m = n := by
  intro m n h
  unfold natChars at h
  by_cases hm : m = 0 <;> by_cases hn : n = 0
  · omega
  · rw [if_pos hm, if_neg hn] at h
    exact absurd (natChars_zero_aux h.symm) hn
  · rw [if_neg hm, if_pos hn] at h
    exact absurd (natChars_zero_aux h) hm
  · rw [if_neg hm, if_neg hn] at h
    have h1 : ∀ d ∈ (Nat.digits 10 m).reverse, d < 10 := by
      intro d hd
      exact Nat.digits_lt_base (by norm_num) (by simpa using hd)
    have h2 : ∀ d ∈ (Nat.digits 10 n).reverse, d < 10 := by
      intro d hd
      exact Nat.digits_lt_base (by norm_num) (by simpa using hd)
    have hrev := mapDigit_inj h1 h2 h
    have := congrArg List.reverse hrev
    simp only [List.reverse_reverse] at this
    have hof := congrArg (Nat.ofDigits 10) this
    rwa [Nat.ofDigits_digits, Nat.ofDigits_digits] at hof

theorem intChars_inj : ∀ {i j : ℤ}, intChars i = intChars j → i = j := by
  intro i j h
  unfold intChars at h
  by_cases hi : i < 0 <;> by_cases hj : j < 0
  · rw [if_pos hi, if_pos hj] at h
    simp only [List.cons.injEq, true_and] at h
    have := natChars_inj h
    omega
  · rw [if_pos hi, if_neg hj] at h
    exact absurd
      (show '-' ∈ natChars j.toNat by rw [← h]; exact List.mem_cons_self _ _)
      (natChars_no_dash _)
  · rw [if_neg hi, if_pos hj] at h
    exact absurd
      (show '-' ∈ natChars i.toNat by rw [h]; exact List.mem_cons_self _ _)
      (natChars_no_dash _)
  · rw [if_neg hi, if_neg hj] at h
    have := natChars_inj h
    omega

/-- The fingerprint depends only on the integer-scaled encodings. -/
theorem filename_unique_congr (g1 g2 : CambGenerator)
    (h : g1.encoded = g2.encoded) :
    g1.filename_unique = g2.filename_unique := by
  unfold CambGenerator.encoded at h
  simp only [Prod.mk.injEq] at h
  obtain ⟨h1, h2, h3, h4, h5, h6⟩ := h
  unfold CambGenerator.filename_unique
  rw [h1, h2, h3, h4, h5, h6]

/-- Conversely, equal fingerprints force equal encodings: the underscore-
separated decimal components parse back uniquely. -/
theorem filename_unique_inj (g1 g2 : CambGenerator)
    (h : g1.filename_unique = g2.filename_unique) :
    g1.encoded = g2.encoded := by
  have hd := congrArg String.data h
  unfold CambGenerator.filename_unique at hd
  simp only [List.append_assoc, List.cons_append] at hd
  obtain ⟨e1, hd⟩ := append_sep_inj (intChars_no_underscore _) (intChars_no_underscore _) hd
  obtain ⟨e2, hd⟩ := append_sep_inj (natChars_no_underscore _) (natChars_no_underscore _) hd
  obtain ⟨e3, hd⟩ := append_sep_inj (natChars_no_underscore _) (natChars_no_underscore _) hd
  obtain ⟨e4, hd⟩ := append_sep_inj (intChars_no_underscore _) (intChars_no_underscore _) hd
  obtain ⟨e5, e6⟩ := append_sep_inj (intChars_no_underscore _) (intChars_no_underscore _) hd
  unfold CambGenerator.encoded
  rw [intChars_inj e1, natChars_inj e2, natChars_inj e3, intChars_inj e4,
    intChars_inj e5, intChars_inj e6]

/-- Claim C4 counterexample: `g4a` and `g4b` differ in exactly one
constructor field (redshift) yet produce identical cache fingerprints,
because int(0.51*1000) = int(0.5101*1000) = 510. -/
theorem claim4_counterexample :
    g4a.filename_unique = g4b.filename_unique ∧
    g4a.redshift ≠ g4b.redshift ∧
    g4a.om_resolution = g4b.om_resolution ∧
    g4a.h0_resolution = g4b.h0_resolution ∧
    g4a.h0 = g4b.h0 ∧ g4a.omega_b = g4b.omega_b ∧ g4a.ns = g4b.ns := by
  have e1 : pyInt ((51/100 : ℚ) * 1000) = 510 := by
    rw [pyInt, if_neg (by norm_num), Int.floor_eq_iff]
    constructor <;> norm_num
  have e2 : pyInt ((5101/10000 : ℚ) * 1000) = 510 := by
    rw [pyInt, if_neg (by norm_num), Int.floor_eq_iff]
    constructor <;> norm_num
  have henc : g4a.encoded = g4b.encoded := by
    unfold CambGenerator.encoded
    simp only [g4a, g4b]
    rw [e1, e2]
  exact ⟨filename_unique_congr g4a g4b henc, by norm_num [g4a, g4b],
    rfl, rfl, rfl, rfl, rfl⟩

/-- Claim C4, amended: construction arguments with identical
(redshift, om_resolution, h0_resolution, h0, ob, ns) produce identical
fingerprints; and two fingerprints are equal exactly when the integer-scaled
encodings (int(z*1000), om_res, h0_res, int(h0*10000), int(ob*10000),
int(ns*1000)) agree — so a single differing field changes the fingerprint
precisely when its fixed-precision encoding changes, and fields that collapse
under the integer scaling (such as redshift 0.51 vs 0.5101) share one cache
entry. -/
theorem claim4_amended_fingerprint (g1 g2 : CambGenerator) :
    ((g1.redshift = g2.redshift ∧ g1.om_resolution = g2.om_resolution ∧
      g1.h0_resolution = g2.h0_resolution ∧ g1.h0 = g2.h0 ∧
      g1.omega_b = g2.omega_b ∧ g1.ns = g2.ns) →
      g1.filename_unique = g2.filename_unique) ∧
    (g1.filename_unique = g2.filename_unique ↔ g1.encoded = g2.encoded) := by
  constructor
  · rintro ⟨h1, h2, h3, h4, h5, h6⟩
    refine filename_unique_congr g1 g2 ?_
    unfold CambGenerator.encoded
    rw [h1, h2, h3, h4, h5, h6]
  · exact ⟨filename_unique_inj g1 g2, filename_unique_congr g1 g2⟩

/-- Witness for the amended C4, applying it to two identically-constructed
generators. -/
theorem claim4_amended_fingerprint_witness :
    ((gC.redshift = gC.redshift ∧ gC.om_resolution = gC.om_resolution ∧
      gC.h0_resolution = gC.h0_resolution ∧ gC.h0 = gC.h0 ∧
      gC.omega_b = gC.omega_b ∧ gC.ns = gC.ns) ∧
      gC.filename_unique = gC.filename_unique) ∧
    (gC.filename_unique = gC.filename_unique ↔ gC.encoded = gC.encoded) :=
  ⟨⟨⟨rfl, rfl, rfl, rfl, rfl, rfl⟩,
    (claim4_amended_fingerprint gC gC).1 ⟨rfl, rfl, rfl, rfl, rfl, rfl⟩⟩,
    (claim4_amended_fingerprint gC gC).2⟩

/-! ### Claim C8: smoothing-method validation gate -/

/-- Claim C8: constructing a correlation model with an unrecognized
smoothing-method name fails fast at construction: the collaborator logs the
InvalidParameterRange error, the gate aborts (`exit(0)` in the source), and
no model instance is returned. -/
theorem claim8_smooth_validation (recognized : List String) (name : String)
    (h : recognized.contains name = false) :
    CorrelationPolynomial.construct recognized name =
      Except.error ["InvalidParameterRange: unrecognized smoothing method " ++ name] := by
  unfold CorrelationPolynomial.construct validate_smooth_method
  rw [h]
  simp

/-- Witness for C8 with an explicit recognized set and a bogus name. -/
theorem claim8_smooth_validation_witness :
    (["hinton2017", "eh1998"].contains "nonexistent") = false ∧
    CorrelationPolynomial.construct ["hinton2017", "eh1998"] "nonexistent" =
      Except.error ["InvalidParameterRange: unrecognized smoothing method nonexistent"] :=
  ⟨by decide,
    (claim8_smooth_validation ["hinton2017", "eh1998"] "nonexistent" (by decide)).trans
      (by rfl)⟩

/-! ### Claim C9: bounds-checked interpolation in the transform engine -/

theorem foldl_min_le_init : ∀ (as : List ℝ) (a : ℝ), as.foldl min a ≤ a := by
  intro as
  induction as with
  | nil => intro a; exact le_refl a
  | cons b bs ih => intro a; exact le_trans (ih (min a b)) (min_le_left a b)

theorem foldl_min_le_mem : ∀ (as : List ℝ) (a x : ℝ), x ∈ as → as.foldl min a ≤ x := by
  intro as
  induction as with
  | nil => intro a x hx; simp at hx
  | cons b bs ih =>
    intro a x hx
    rcases List.mem_cons.mp hx with h | h
    · subst h
      exact le_trans (foldl_min_le_init bs (min a x)) (min_le_right a x)
    · exact ih (min a b) x h

theorem init_le_foldl_max : ∀ (as : List ℝ) (a : ℝ), a ≤ as.foldl max a := by
  intro as
  induction as with
  | nil => intro a; exact le_refl a
  | cons b bs ih => intro a; exact le_trans (le_max_left a b) (ih (max a b))

theorem mem_le_foldl_max : ∀ (as : List ℝ) (a x : ℝ), x ∈ as → x ≤ as.foldl max a := by
  intro as
  induction as with
  | nil => intro a x hx; simp at hx
  | cons b bs ih =>
    intro a x hx
    rcases List.mem_cons.mp hx with h | h
    · subst h
      exact le_trans (le_max_right a x) (init_le_foldl_max bs (max a x))
    · exact ih (max a b) x h

theorem npMin_le (l : List ℝ) (x : ℝ) (hx : x ∈ l) : npMin l ≤ x := by
  cases l with
  | nil => simp at hx
  | cons a as =>
    rcases List.mem_cons.mp hx with h | h
    · subst h
      exact foldl_min_le_init as x
    · exact foldl_min_le_mem as a x h

theorem le_npMax (l : List ℝ) (x : ℝ) (hx : x ∈ l) : x ≤ npMax l := by
  cases l with
  | nil => simp at hx
  | cons a as =>
    rcases List.mem_cons.mp hx with h | h
    · subst h
      exact init_le_foldl_max as x
    · exact mem_le_foldl_max as a x h

theorem npMin_le_npMax (l : List ℝ) (hl : l ≠ []) : npMin l ≤ npMax l := by
  cases l with
  | nil => exact absurd rfl hl
  | cons a as =>
    exact le_trans (foldl_min_le_init as a) (init_le_foldl_max as a)

/-- interp1d raises when the query is below every sample point. -/
theorem interp1d_none_low : ∀ (xs ys : List ℝ) (q : ℝ),
    (∀ x ∈ xs, q < x) → interp1d xs ys q = none := by
  intro xs ys q h
  rcases xs with _ | ⟨x1, xs1⟩
  · rfl
  rcases xs1 with _ | ⟨x2, xs2⟩
  · rcases ys with _ | ⟨y1, ys1⟩ <;> rfl
  rcases ys with _ | ⟨y1, ys1⟩
  · rfl
  rcases ys1 with _ | ⟨y2, ys2⟩
  · rfl
  simp only [interp1d]
  rw [if_pos (h x1 (by simp))]

/-- interp1d raises when the query is above every sample point. -/
theorem interp1d_none_high : ∀ (xs ys : List ℝ) (q : ℝ),
    (∀ x ∈ xs, x < q) → interp1d xs ys q = none := by
  intro xs
  induction xs with
  | nil => intro ys q h; rfl
  | cons x1 xs1 ih =>
    intro ys q h
    rcases xs1 with _ | ⟨x2, xs2⟩
    · rcases ys with _ | ⟨y1, ys1⟩ <;> rfl
    rcases ys with _ | ⟨y1, ys1⟩
    · rfl
    rcases ys1 with _ | ⟨y2, ys2⟩
    · rfl
    simp only [interp1d]
    rw [if_neg (not_lt.mpr (le_of_lt (h x1 (by simp)))),
      if_neg (not_le.mpr (h x2 (by simp)))]
    exact ih (y2 :: ys2) q (fun x hx => h x (List.mem_cons_of_mem x1 hx))

/-- The vectorised interpolation fails as soon as one grid point fails. -/
theorem tryMap_none {f : ℝ → Option ℝ} : ∀ {l : List ℝ} {x : ℝ},
    x ∈ l → f x = none → tryMap f l = none := by
  intro l
  induction l with
  | nil => intro x hx _; simp at hx
  | cons a as ih =>
    intro x hx hf
    rcases List.mem_cons.mp hx with h | h
    · subst h
      simp [tryMap, hf]
    · have hrec := ih h hf
      cases hfa : f a <;> simp [tryMap, hfa, hrec]

/-- The dense grid contains the input minimum (its first point). -/
theorem ks2_min_mem (ks : List ℝ) (d : ℕ) (hpos : 0 < npMin ks)
    (hM : 1 ≤ d * ks.length) :
    npMin ks ∈ PowerToCorrelationGauss.ks2 ks d := by
  simp only [PowerToCorrelationGauss.ks2, logspaceR]
  have hmem : (0 : ℕ) ∈ List.range (d * ks.length) := List.mem_range.mpr (by omega)
  exact List.mem_map.mpr ⟨0, hmem, by simp [Real.exp_log hpos]⟩

/-- The dense grid contains the input maximum (its last point). -/
theorem ks2_max_mem (ks : List ℝ) (d : ℕ) (hposmax : 0 < npMax ks)
    (hM : 2 ≤ d * ks.length) :
    npMax ks ∈ PowerToCorrelationGauss.ks2 ks d := by
  simp only [PowerToCorrelationGauss.ks2, logspaceR]
  have hmem : d * ks.length - 1 ∈ List.range (d * ks.length) :=
    List.mem_range.mpr (by omega)
  refine List.mem_map.mpr ⟨d * ks.length - 1, hmem, ?_⟩
  have hne : (d : ℝ) * (ks.length : ℝ) - 1 ≠ 0 := by
    have h2 : (2 : ℝ) ≤ (d : ℝ) * (ks.length : ℝ) := by exact_mod_cast hM
    linarith
  push_cast [Nat.cast_sub (by omega : 1 ≤ d * ks.length)]
  rw [mul_div_cancel_left₀ _ hne]
  have harith : Real.log (npMin ks) + (Real.log (npMax ks) - Real.log (npMin ks)) =
      Real.log (npMax ks) := by ring
  rw [harith]
  exact Real.exp_log hposmax

/-- Claim C9: a call whose input wavenumber span does not cover the dense
grid fixed at construction (min(ks) strictly above the dense minimum, or
max(ks) strictly below the dense maximum) raises the interp1d bounds error
instead of returning a correlation function. -/
theorem claim9_interp_bounds (ks0 : List ℝ) (d : ℕ) (a : ℝ) (ks pks ss : List ℝ)
    (hpos : 0 < npMin ks0) (hM : 2 ≤ d * ks0.length)
    (hspan : npMin ks0 < npMin ks ∨ npMax ks < npMax ks0) :
    PowerToCorrelationGauss.call ks0 d a ks pks ss = none := by
  unfold PowerToCorrelationGauss.call
  suffices h : tryMap (interp1d ks pks) (PowerToCorrelationGauss.ks2 ks0 d) = none by
    rw [h]
    rfl
  have hne : ks0 ≠ [] := by
    intro hnil
    rw [hnil] at hM
    simp at hM
  rcases hspan with hlow | hhigh
  · exact tryMap_none (ks2_min_mem ks0 d hpos (by omega))
      (interp1d_none_low ks pks _ (fun x hx => lt_of_lt_of_le hlow (npMin_le ks x hx)))
  · have hposmax : 0 < npMax ks0 := lt_of_lt_of_le hpos (npMin_le_npMax ks0 hne)
    exact tryMap_none (ks2_max_mem ks0 d hposmax hM)
      (interp1d_none_high ks pks _ (fun x hx => lt_of_le_of_lt (le_npMax ks x hx) hhigh))

/-- Witness for C9: an instance built on [1, e] (dense grid [1, e]) called
with wavenumbers [2, 3], whose minimum 2 exceeds the dense minimum 1. -/
theorem claim9_interp_bounds_witness :
    0 < npMin [1, Real.exp 1] ∧
    2 ≤ 1 * ([1, Real.exp 1] : List ℝ).length ∧
    npMin [1, Real.exp 1] < npMin [2, 3] ∧
    PowerToCorrelationGauss.call [1, Real.exp 1] 1 1 [2, 3] [5, 6] [1] = none := by
  have hone : (1 : ℝ) ≤ Real.exp 1 := Real.one_le_exp (by norm_num)
  have hmin : npMin [1, Real.exp 1] = 1 := by
    simp only [npMin, List.foldl]
    exact min_eq_left hone
  have hmin2 : npMin [(2 : ℝ), 3] = 2 := by
    simp only [npMin, List.foldl]
    exact min_eq_left (by norm_num)
  refine ⟨by rw [hmin]; norm_num, by simp, by rw [hmin, hmin2]; norm_num, ?_⟩
  exact claim9_interp_bounds [1, Real.exp 1] 1 1 [2, 3] [5, 6] [1]
    (by rw [hmin]; norm_num) (by simp) (Or.inl (by rw [hmin, hmin2]; norm_num))

/-! ### Claim C10: linearity of the Gauss transform in the power spectrum -/

theorem interp1d_add : ∀ (xs ys zs : List ℝ) (q : ℝ), ys.length = xs.length →
    zs.length = xs.length →
    interp1d xs (List.zipWith (· + ·) ys zs) q =
      (interp1d xs ys q).bind fun u => (interp1d xs zs q).map fun v => u + v := by
  intro xs
  induction xs with
  | nil =>
    intro ys zs q h1 h2
    have hy : ys = [] := List.length_eq_zero.mp h1
    have hz : zs = [] := List.length_eq_zero.mp h2
    subst hy
    subst hz
    rfl
  | cons x1 xs1 ih =>
    intro ys zs q h1 h2
    rcases ys with _ | ⟨y1, ys1⟩
    · simp at h1
    rcases zs with _ | ⟨z1, zs1⟩
    · simp at h2
    rcases xs1 with _ | ⟨x2, xs2⟩
    · have hy : ys1 = [] := by simpa using h1
      have hz : zs1 = [] := by simpa using h2
      subst hy
      subst hz
      rfl
    rcases ys1 with _ | ⟨y2, ys2⟩
    · simp at h1
    rcases zs1 with _ | ⟨z2, zs2⟩
    · simp at h2
    have h1x : (y2 :: ys2).length = (x2 :: xs2).length := by
      simp only [List.length_cons] at h1 ⊢
      omega
    have h2x : (z2 :: zs2).length = (x2 :: xs2).length := by
      simp only [List.length_cons] at h2 ⊢
      omega
    simp only [List.zipWith_cons_cons, interp1d]
    by_cases hq1 : q < x1
    · rw [if_pos hq1, if_pos hq1]
      rfl
    rw [if_neg hq1, if_neg hq1, if_neg hq1]
    by_cases hq2 : q ≤ x2
    · rw [if_pos hq2, if_pos hq2, if_pos hq2]
      simp only [Option.some_bind, Option.map_some', Option.some.injEq]
      ring
    rw [if_neg hq2, if_neg hq2, if_neg hq2]
    exact ih (y2 :: ys2) (z2 :: zs2) q h1x h2x

theorem interp1d_smul : ∀ (xs ys : List ℝ) (q c : ℝ),
    interp1d xs (ys.map fun y => c * y) q =
      (interp1d xs ys q).map fun v => c * v := by
  intro xs
  induction xs with
  | nil => intro ys q c; rfl
  | cons x1 xs1 ih =>
    intro ys q c
    rcases xs1 with _ | ⟨x2, xs2⟩
    · rcases ys with _ | ⟨y1, ys1⟩ <;> rfl
    rcases ys with _ | ⟨y1, ys1⟩
    · rfl
    rcases ys1 with _ | ⟨y2, ys2⟩
    · rfl
    simp only [List.map_cons, interp1d]
    by_cases hq1 : q < x1
    · rw [if_pos hq1, if_pos hq1]
      rfl
    rw [if_neg hq1, if_neg hq1]
    by_cases hq2 : q ≤ x2
    · rw [if_pos hq2, if_pos hq2]
      simp only [Option.map_some', Option.some.injEq]
      ring
    rw [if_neg hq2, if_neg hq2]
    exact ih (y2 :: ys2) q c

theorem tryMap_length {f : ℝ → Option ℝ} : ∀ {l r : List ℝ},
    tryMap f l = some r → r.length = l.length := by
  intro l
  induction l with
  | nil =>
    intro r h
    simp only [tryMap, Option.some.injEq] at h
    subst h
    rfl
  | cons a as ih =>
    intro r h
    simp only [tryMap] at h
    cases hfa : f a with
    | none => rw [hfa] at h; simp at h
    | some y =>
      rw [hfa] at h
      cases htm : tryMap f as with
      | none => rw [htm] at h; simp at h
      | some ys =>
        rw [htm] at h
        simp only [Option.some.injEq] at h
        subst h
        simp [ih htm]

theorem tryMap_add {xs ys zs : List ℝ} (h1 : ys.length = xs.length)
    (h2 : zs.length = xs.length) : ∀ {l as bs : List ℝ},
    tryMap (interp1d xs ys) l = some as →
    tryMap (interp1d xs zs) l = some bs →
    tryMap (interp1d xs (List.zipWith (· + ·) ys zs)) l =
      some (List.zipWith (· + ·) as bs) := by
  intro l
  induction l with
  | nil =>
    intro as bs ha hb
    simp only [tryMap, Option.some.injEq] at ha hb
    subst ha
    subst hb
    rfl
  | cons q l ih =>
    intro as bs ha hb
    simp only [tryMap] at ha hb ⊢
    cases hq1 : interp1d xs ys q with
    | none => rw [hq1] at ha; simp at ha
    | some u =>
      rw [hq1] at ha
      cases ht1 : tryMap (interp1d xs ys) l with
      | none => rw [ht1] at ha; simp at ha
      | some us =>
        rw [ht1] at ha
        simp only [Option.some.injEq] at ha
        subst ha
        cases hq2 : interp1d xs zs q with
        | none => rw [hq2] at hb; simp at hb
        | some v =>
          rw [hq2] at hb
          cases ht2 : tryMap (interp1d xs zs) l with
          | none => rw [ht2] at hb; simp at hb
          | some vs =>
            rw [ht2] at hb
            simp only [Option.some.injEq] at hb
            subst hb
            rw [interp1d_add xs ys zs q h1 h2, hq1, hq2]
            simp only [Option.some_bind, Option.map_some']
            rw [ih ht1 ht2]
            rfl

theorem tryMap_smul {xs ys : List ℝ} (c : ℝ) : ∀ {l as : List ℝ},
    tryMap (interp1d xs ys) l = some as →
    tryMap (interp1d xs (ys.map fun y => c * y)) l =
      some (as.map fun y => c * y) := by
  intro l
  induction l with
  | nil =>
    intro as ha
    simp only [tryMap, Option.some.injEq] at ha
    subst ha
    rfl
  | cons q l ih =>
    intro as ha
    simp only [tryMap] at ha ⊢
    cases hq1 : interp1d xs ys q with
    | none => rw [hq1] at ha; simp at ha
    | some u =>
      rw [hq1] at ha
      cases ht1 : tryMap (interp1d xs ys) l with
      | none => rw [ht1] at ha; simp at ha
      | some us =>
        rw [ht1] at ha
        simp only [Option.some.injEq] at ha
        subst ha
        rw [interp1d_smul xs ys q c, hq1]
        simp only [Option.map_some']
        rw [ih ht1]
        rfl

theorem trapz_add : ∀ (ys zs xs : List ℝ), ys.length = zs.length →
    trapz (List.zipWith (· + ·) ys zs) xs = trapz ys xs + trapz zs xs := by
  intro ys
  induction ys with
  | nil =>
    intro zs xs h
    have hz : zs = [] := List.length_eq_zero.mp h.symm
    subst hz
    simp [trapz]
  | cons y1 ys1 ih =>
    intro zs xs h
    rcases zs with _ | ⟨z1, zs1⟩
    · simp at h
    rcases ys1 with _ | ⟨y2, ys2⟩
    · have hz : zs1 = [] := by simpa using h.symm
      subst hz
      rcases xs with _ | ⟨x1, xs1⟩
      · simp [trapz]
      rcases xs1 with _ | ⟨x2, xs2⟩ <;> simp [trapz]
    rcases zs1 with _ | ⟨z2, zs2⟩
    · simp at h
    rcases xs with _ | ⟨x1, xs1⟩
    · simp [trapz]
    rcases xs1 with _ | ⟨x2, xs2⟩
    · simp [trapz]
    have hlen : (y2 :: ys2).length = (z2 :: zs2).length := by
      simp only [List.length_cons] at h ⊢
      omega
    have hrec := ih (z2 :: zs2) (x2 :: xs2) hlen
    rw [List.zipWith_cons_cons] at hrec
    simp only [List.zipWith_cons_cons, trapz]
    rw [hrec]
    ring

theorem trapz_smul : ∀ (ys xs : List ℝ) (c : ℝ),
    trapz (ys.map fun y => c * y) xs = c * trapz ys xs := by
  intro ys
  induction ys with
  | nil => intro xs c; simp [trapz]
  | cons y1 ys1 ih =>
    intro xs c
    rcases ys1 with _ | ⟨y2, ys2⟩
    · rcases xs with _ | ⟨x1, xs1⟩
      · simp [trapz]
      rcases xs1 with _ | ⟨x2, xs2⟩ <;> simp [trapz]
    rcases xs with _ | ⟨x1, xs1⟩
    · simp [trapz]
    rcases xs1 with _ | ⟨x2, xs2⟩
    · simp [trapz]
    have hrec := ih (x2 :: xs2) c
    rw [List.map_cons] at hrec
    simp only [List.map_cons, trapz]
    rw [hrec]
    ring

theorem integrand_add (s : ℝ) : ∀ (K P as bs : List ℝ), P.length = K.length →
    as.length = K.length → bs.length = K.length →
    List.zipWith (fun kk k => kk * Real.sin (k * s) / s)
        (List.zipWith (fun p q => p * q) P (List.zipWith (· + ·) as bs)) K =
      List.zipWith (· + ·)
        (List.zipWith (fun kk k => kk * Real.sin (k * s) / s)
          (List.zipWith (fun p q => p * q) P as) K)
        (List.zipWith (fun kk k => kk * Real.sin (k * s) / s)
          (List.zipWith (fun p q => p * q) P bs) K) := by
  intro K
  induction K with
  | nil => intro P as bs _ _ _; simp
  | cons k K ih =>
    intro P as bs hP has hbs
    rcases P with _ | ⟨p, P⟩
    · simp at hP
    rcases as with _ | ⟨a1, as⟩
    · simp at has
    rcases bs with _ | ⟨b1, bs⟩
    · simp at hbs
    simp only [List.zipWith_cons_cons]
    rw [ih P as bs (by simpa using hP) (by simpa using has) (by simpa using hbs)]
    congr 1
    ring

theorem integrand_smul (s c : ℝ) : ∀ (K P as : List ℝ), P.length = K.length →
    as.length = K.length →
    List.zipWith (fun kk k => kk * Real.sin (k * s) / s)
        (List.zipWith (fun p q => p * q) P (as.map fun y => c * y)) K =
      (List.zipWith (fun kk k => kk * Real.sin (k * s) / s)
        (List.zipWith (fun p q => p * q) P as) K).map fun y => c * y := by
  intro K
  induction K with
  | nil => intro P as _ _; simp
  | cons k K ih =>
    intro P as hP has
    rcases P with _ | ⟨p, P⟩
    · simp at hP
    rcases as with _ | ⟨a1, as⟩
    · simp at has
    simp only [List.map_cons, List.zipWith_cons_cons]
    rw [ih P as (by simpa using hP) (by simpa using has)]
    congr 1
    ring

theorem zipWith_map_self {α β : Type} (f g : α → β) (op : β → β → β) :
    ∀ l : List α, List.zipWith op (l.map f) (l.map g) = l.map fun x => op (f x) (g x) := by
  intro l
  induction l with
  | nil => rfl
  | cons a l ih => simp [ih]

/-- Claim C10: for a fixed instance, fixed input wavenumbers covering the
dense grid (expressed by the success hypotheses) and fixed distances,
`__call__` is linear in the power-spectrum argument: the transform of a
pointwise sum is the pointwise sum of the transforms, and the transform of
a scalar multiple is the scalar multiple of the transform. -/
theorem claim10_call_linear (ks0 : List ℝ) (d : ℕ) (a c : ℝ)
    (ks pk1 pk2 ss x1 x2 : List ℝ)
    (hl1 : pk1.length = ks.length) (hl2 : pk2.length = ks.length)
    (h1 : PowerToCorrelationGauss.call ks0 d a ks pk1 ss = some x1)
    (h2 : PowerToCorrelationGauss.call ks0 d a ks pk2 ss = some x2) :
    PowerToCorrelationGauss.call ks0 d a ks (List.zipWith (· + ·) pk1 pk2) ss =
      some (List.zipWith (· + ·) x1 x2) ∧
    PowerToCorrelationGauss.call ks0 d a ks (pk1.map fun y => c * y) ss =
      some (x1.map fun y => c * y) := by
  unfold PowerToCorrelationGauss.call at h1 h2 ⊢
  cases ht1 : tryMap (interp1d ks pk1) (PowerToCorrelationGauss.ks2 ks0 d) with
  | none => rw [ht1] at h1; simp at h1
  | some as =>
    rw [ht1] at h1
    simp only [Option.map_some', Option.some.injEq] at h1
    cases ht2 : tryMap (interp1d ks pk2) (PowerToCorrelationGauss.ks2 ks0 d) with
    | none => rw [ht2] at h2; simp at h2
    | some bs =>
      rw [ht2] at h2
      simp only [Option.map_some', Option.some.injEq] at h2
      have hlenP : (PowerToCorrelationGauss.precomp ks0 d a).length =
          (PowerToCorrelationGauss.ks2 ks0 d).length := by
        simp [PowerToCorrelationGauss.precomp]
      have hlas : as.length = (PowerToCorrelationGauss.ks2 ks0 d).length :=
        tryMap_length ht1
      have hlbs : bs.length = (PowerToCorrelationGauss.ks2 ks0 d).length :=
        tryMap_length ht2
      constructor
      · rw [tryMap_add hl1 hl2 ht1 ht2]
        simp only [Option.map_some', Option.some.injEq]
        rw [← h1, ← h2, zipWith_map_self]
        refine List.map_congr_left fun s _ => ?_
        rw [integrand_add s _ _ as bs hlenP hlas hlbs]
        refine trapz_add _ _ _ ?_
        simp [List.length_zipWith, hlenP, hlas, hlbs]
      · rw [tryMap_smul c ht1]
        simp only [Option.map_some', Option.some.injEq]
        rw [← h1, List.map_map]
        refine List.map_congr_left fun s _ => ?_
        simp only [Function.comp_apply]
        rw [integrand_smul s c _ _ as hlenP hlas]
        exact trapz_smul _ _ c

/-- Concrete evaluation of the Gauss transform on the degenerate dense grid
[1, 1] (built from ks0 = [1, 1]): the trapezoid widths vanish, so every
spectrum transforms to [0] at the single distance 1. -/
theorem gauss_call_degenerate_eval (p1 p2 : ℝ) :
    PowerToCorrelationGauss.call [1, 1] 1 0 [1, 2] [p1, p2] [1] = some [0] := by
  have hdense : PowerToCorrelationGauss.ks2 [1, 1] 1 = [1, 1] := by
    simp [PowerToCorrelationGauss.ks2, logspaceR, npMin, npMax, List.range_succ]
  have hinterp : interp1d [1, 2] [p1, p2] 1 = some p1 := by
    simp only [interp1d]
    rw [if_neg (lt_irrefl 1), if_pos (by norm_num)]
    norm_num
  have htry : tryMap (interp1d [1, 2] [p1, p2]) [(1 : ℝ), 1] = some [p1, p1] := by
    simp [tryMap, hinterp]
  unfold PowerToCorrelationGauss.call
  rw [hdense, htry]
  simp only [Option.map_some', Option.some.injEq]
  simp [PowerToCorrelationGauss.precomp, hdense, trapz]

/-- Witness for C10 at a concrete instance: pk1 = [1,0], pk2 = [0,1],
scalar 2, both transforms succeeding with value [0]. -/
theorem claim10_call_linear_witness :
    ([1, 0] : List ℝ).length = ([1, 2] : List ℝ).length ∧
    ([0, 1] : List ℝ).length = ([1, 2] : List ℝ).length ∧
    PowerToCorrelationGauss.call [1, 1] 1 0 [1, 2] [1, 0] [1] = some [0] ∧
    PowerToCorrelationGauss.call [1, 1] 1 0 [1, 2] [0, 1] [1] = some [0] ∧
    PowerToCorrelationGauss.call [1, 1] 1 0 [1, 2]
        (List.zipWith (· + ·) [1, 0] [0, 1]) [1] =
      some (List.zipWith (· + ·) [0] [0]) ∧
    PowerToCorrelationGauss.call [1, 1] 1 0 [1, 2]
        (([1, 0] : List ℝ).map fun y => 2 * y) [1] =
      some (([0] : List ℝ).map fun y => 2 * y) := by
  have e1 := gauss_call_degenerate_eval 1 0
  have e2 := gauss_call_degenerate_eval 0 1
  have hmain := claim10_call_linear [1, 1] 1 0 2 [1, 2] [1, 0] [0, 1] [1] [0] [0]
    (by simp) (by simp) e1 e2
  exact ⟨by simp, by simp, e1, e2, hmain.1, hmain.2⟩

/-! ### Claim C3: the Gauss transform versus its spec description -/

theorem integrand_forms_eq (s a : ℝ) : ∀ (K pkI : List ℝ), pkI.length = K.length →
    List.zipWith (fun kk k => kk * Real.sin (k * s) / s)
      (List.zipWith (fun p q => p * q)
        (K.map fun k => k * Real.exp (-(k * k * a * a)) / (2 * Real.pi * Real.pi)) pkI) K =
    List.zipWith (fun k p => specKernel a k * p * Real.sin (k * s) / s) K pkI := by
  intro K
  induction K with
  | nil => intro pkI h; simp
  | cons k K ih =>
    intro pkI h
    rcases pkI with _ | ⟨p, pkI⟩
    · simp at h
    simp only [List.map_cons, List.zipWith_cons_cons]
    rw [ih pkI (by simpa using h)]
    congr 1
    unfold specKernel
    rw [show (-(k * k * a * a)) = (-(k ^ 2 * a ^ 2)) from by ring]
    ring

/-- Claim C3, amended: the transform built at construction is exactly the
spec description with the quadrature read with respect to k over the
(log-spaced) dense grid — dense grid of interpolateDetail times the input
size spanning the input range, precomputed kernel k exp(-k^2 a^2)/(2 pi^2),
linear interpolation of the input spectrum onto the dense grid, and per
distance s the trapezoidal quadrature in k of kernel * pk * sin(k s)/s —
and the output (when the call succeeds) has the same length as the
distances argument. -/
theorem claim3_amended_transform_spec (ks0 : List ℝ) (d : ℕ) (a : ℝ)
    (ks pks ss : List ℝ) :
    PowerToCorrelationGauss.call ks0 d a ks pks ss =
      specTransformK ks0 d a ks pks ss ∧
    (∀ xs, PowerToCorrelationGauss.call ks0 d a ks pks ss = some xs →
      xs.length = ss.length) := by
  have hgrid : specDenseGrid ks0 d = PowerToCorrelationGauss.ks2 ks0 d := by
    rw [specDenseGrid, PowerToCorrelationGauss.ks2]
  constructor
  · unfold PowerToCorrelationGauss.call specTransformK
    rw [hgrid]
    cases ht : tryMap (interp1d ks pks) (PowerToCorrelationGauss.ks2 ks0 d) with
    | none => rw [Option.map_none', Option.map_none']
    | some pkI =>
      simp only [Option.map_some', Option.some.injEq]
      refine List.map_congr_left fun s _ => ?_
      rw [PowerToCorrelationGauss.precomp]
      rw [integrand_forms_eq s a _ pkI (tryMap_length ht)]
  · intro xs h
    unfold PowerToCorrelationGauss.call at h
    cases ht : tryMap (interp1d ks pks) (PowerToCorrelationGauss.ks2 ks0 d) with
    | none => rw [ht] at h; simp at h
    | some pkI =>
      rw [ht] at h
      simp only [Option.map_some', Option.some.injEq] at h
      rw [← h]
      simp

/-- Claim C3 counterexample: on the two-point instance ks0 = [1, e^2] with
interpolateDetail 1 and damping a = 0, querying pk = [1, 0] at the single
distance pi/2, the source computes the trapezoid with respect to k
(value (e^2 - 1)/(2 pi^3)) while the claimed quadrature in log-k space gives
1/pi^3; they differ because e^2 is not 3. -/
theorem claim3_counterexample :
    PowerToCorrelationGauss.call [1, Real.exp 2] 1 0 [1, Real.exp 2] [1, 0]
        [Real.pi / 2] ≠
      specTransformLogK [1, Real.exp 2] 1 0 [1, Real.exp 2] [1, 0]
        [Real.pi / 2] := by
  have h1e : (1 : ℝ) < Real.exp 2 := Real.one_lt_exp_iff.mpr (by norm_num)
  have hne : Real.exp 2 - 1 ≠ 0 := sub_ne_zero.mpr (ne_of_gt h1e)
  have hpi := Real.pi_pos
  have hmin : npMin [1, Real.exp 2] = 1 := by
    simp only [npMin, List.foldl]
    exact min_eq_left h1e.le
  have hmax : npMax [1, Real.exp 2] = Real.exp 2 := by
    simp only [npMax, List.foldl]
    exact max_eq_right h1e.le
  have hdense : PowerToCorrelationGauss.ks2 [1, Real.exp 2] 1 = [1, Real.exp 2] := by
    simp only [PowerToCorrelationGauss.ks2, logspaceR, hmin, hmax, List.length_cons,
      List.length_nil, Real.log_one, Real.log_exp]
    norm_num [List.range_succ]
  have i0 : interp1d [1, Real.exp 2] [1, 0] 1 = some 1 := by
    simp only [interp1d]
    rw [if_neg (lt_irrefl 1), if_pos h1e.le]
    norm_num
  have i1 : interp1d [1, Real.exp 2] [1, 0] (Real.exp 2) = some 0 := by
    simp only [interp1d]
    rw [if_neg (not_lt.mpr h1e.le), if_pos le_rfl]
    rw [mul_div_assoc, div_self hne]
    norm_num
  have htry : tryMap (interp1d [1, Real.exp 2] [1, 0]) [1, Real.exp 2] = some [1, 0] := by
    simp [tryMap, i0, i1]
  have hcall : PowerToCorrelationGauss.call [1, Real.exp 2] 1 0 [1, Real.exp 2] [1, 0]
      [Real.pi / 2] = some [(Real.exp 2 - 1) / (2 * Real.pi ^ 3)] := by
    unfold PowerToCorrelationGauss.call
    rw [hdense, htry]
    simp only [Option.map_some', Option.some.injEq]
    simp only [PowerToCorrelationGauss.precomp, hdense, List.map_cons, List.map_nil,
      List.zipWith_cons_cons, List.zipWith_nil_right, List.map_map]
    simp only [trapz, List.map]
    simp only [List.cons.injEq, and_true]
    norm_num [Real.sin_pi_div_two]
    field_simp
    ring
  have hspec : specTransformLogK [1, Real.exp 2] 1 0 [1, Real.exp 2] [1, 0]
      [Real.pi / 2] = some [1 / Real.pi ^ 3] := by
    unfold specTransformLogK
    have hdd : specDenseGrid [1, Real.exp 2] 1 = [1, Real.exp 2] := hdense
    rw [hdd, htry]
    simp only [Option.map_some', Option.some.injEq]
    simp only [List.map_cons, List.map_nil, List.zipWith_cons_cons,
      List.zipWith_nil_right, specKernel]
    simp only [trapz, List.map]
    simp only [List.cons.injEq, and_true, Real.log_one, Real.log_exp]
    norm_num [Real.sin_pi_div_two]
    field_simp
    ring
  intro h
  rw [hcall, hspec] at h
  simp only [Option.some.injEq, List.cons.injEq, and_true] at h
  have hexp1 : (2.7182818283 : ℝ) < Real.exp 1 := Real.exp_one_gt_d9
  have hexp2 : Real.exp 2 = Real.exp 1 * Real.exp 1 := by
    rw [← Real.exp_add]
    norm_num
  have hgt : (7 : ℝ) < Real.exp 2 := by nlinarith
  have hp3 : (0 : ℝ) < Real.pi ^ 3 := by positivity
  rw [div_eq_div_iff (by positivity) (by positivity)] at h
  nlinarith [h, hp3]

/-- Witness for the amended C3 at a concrete instance where the call
succeeds, with output length matching the distances argument. -/
theorem claim3_amended_transform_spec_witness :
    PowerToCorrelationGauss.call [1, 1] 1 0 [1, 2] [1, 0] [1] =
      specTransformK [1, 1] 1 0 [1, 2] [1, 0] [1] ∧
    PowerToCorrelationGauss.call [1, 1] 1 0 [1, 2] [1, 0] [1] = some [0] ∧
    ([0] : List ℝ).length = ([1] : List ℝ).length :=
  ⟨(claim3_amended_transform_spec [1, 1] 1 0 [1, 2] [1, 0] [1]).1,
    gauss_call_degenerate_eval 1 0,
    (claim3_amended_transform_spec [1, 1] 1 0 [1, 2] [1, 0] [1]).2 [0]
      (gauss_call_degenerate_eval 1 0)⟩
